import Mathlib

/-!
Verification of the fence-safe HTML-to-Markdown pipeline implemented in
`src/context_converter/converter.py` and `src/context_converter/formatter.py`.

Texts are modelled as `List Char`; Python regular-expression substitutions are
modelled by explicit left-to-right scanners that mirror the regex engine's
leftmost, non-overlapping matching.  The element tree handed to the converter
(a BeautifulSoup soup) is modelled by the `Node` inductive.
-/

/-- Texts (Python strings) are lists of characters. -/
abbrev Text := List Char

/-- The backtick character (written by code point to keep sources plain). -/
def btick : Char := '\x60'

/-- Backtick test used by the run scanners (the regex character class of a
single backtick). -/
def isBacktick (c : Char) : Bool := c == btick

/-- The zero-width marker `U+200B` used by `_preserve_code_blocks`. -/
def zwsp : Char := '\u200B'

/-- Python `str.split` on a newline: every occurrence separates, and the
result is never empty. -/
def splitNl : Text → List Text
  | [] => [[]]
  | c :: cs =>
    if c = '\n' then [] :: splitNl cs
    else
      match splitNl cs with
      | [] => [[c]]
      | l :: ls => (c :: l) :: ls

/-- Python `'\n'.join(lines)`. -/
def joinNl : List Text → Text
  | [] => []
  | [l] => l
  | l :: l2 :: ls => l ++ '\n' :: joinNl (l2 :: ls)

/-- Python `str.strip()`: drop leading and trailing whitespace. -/
def pyStrip (l : Text) : Text :=
  ((l.dropWhile Char.isWhitespace).reverse.dropWhile Char.isWhitespace).reverse

/-- Embeds `converter.py` line 53, `code.text.replace('\x60', 'U+200B \x60U+200B ')`:
every literal backtick of the captured code text is wrapped with zero-width
markers. -/
def wrapBackticks : Text → Text
  | [] => []
  | c :: cs => (if c = btick then [zwsp, btick, zwsp] else [c]) ++ wrapBackticks cs

/-- Embeds `converter.py` line 120, `content.replace('U+200B \x60U+200B ', '\x60')`:
leftmost, non-overlapping replacement of the three-character wrapped pattern
by a bare backtick, as Python `str.replace` performs it. -/
def unwrapBackticks : Text → Text
  | [] => []
  | [a] => [a]
  | [a, b] => [a, b]
  | a :: b :: c :: rest =>
    if a = zwsp ∧ b = btick ∧ c = zwsp then btick :: unwrapBackticks rest
    else a :: unwrapBackticks (b :: c :: rest)

/-- Lengths of the maximal backtick runs of a text, in order: the lengths of
the matches of `re.finditer` on a one-or-more-backticks pattern.  `cur` is the
length of the run currently being read. -/
def backtickRunsAux (cur : Nat) : Text → List Nat
  | [] => if cur = 0 then [] else [cur]
  | c :: cs =>
    if c = btick then backtickRunsAux (cur + 1) cs
    else (if cur = 0 then [] else [cur]) ++ backtickRunsAux 0 cs

/-- Lengths of the maximal backtick runs of a text. -/
def backtickRunLengths (s : Text) : List Nat := backtickRunsAux 0 s

/-- Embeds `converter.py` line 121: the maximum matched run length if the
content holds a backtick, else `0`. -/
def maxBackticks (s : Text) : Nat :=
  if s.contains btick then (backtickRunLengths s).foldr Nat.max 0 else 0

/-- Embeds `converter.py` line 122: `fence_length = max(4, max_backticks + 1)`. -/
def fenceLength (content : Text) : Nat := Nat.max 4 (maxBackticks content + 1)

/-- One entry of `self.current_conversion_blocks`: the stored (wrapped)
content and the detected language tag. -/
structure CodeBlock where
  content : Text
  language : Text
deriving Repr, DecidableEq

/-- Embeds `converter.py` lines 120-125, the success path of `convert_pre`:
unwrap the stored content, compute the fence, and emit the block as the
f-string `"\n{fence}{lang}{content}\n{fence}\n"` builds it, where `lang` is
the language followed by a newline when present and empty otherwise. -/
def emitFence (b : CodeBlock) : Text :=
  let content := unwrapBackticks b.content
  let fence := List.replicate (fenceLength content) btick
  let lang := if b.language = [] then [] else b.language ++ ['\n']
  '\n' :: (fence ++ lang ++ content ++ '\n' :: fence ++ ['\n'])

/-- Numeric value of a decimal digit string, as Python `int`. -/
def digitsToNat (ds : Text) : Nat :=
  ds.foldl (fun a c => a * 10 + (c.toNat - '0'.toNat)) 0

/-- Match the placeholder pattern (literal marker, one or more digits, literal
end marker) at the start of `s`, returning the captured index. -/
def matchPlaceholderAt (s : Text) : Option Nat :=
  if ("CODEBLOCK_".toList).isPrefixOf s then
    let rest := s.drop 10
    let ds := rest.takeWhile Char.isDigit
    if ds = [] then none
    else if ("_END".toList).isPrefixOf (rest.drop ds.length) then some (digitsToNat ds)
    else none
  else none

/-- Embeds `converter.py` line 115, the `re.search` for the placeholder
pattern: leftmost match, returning the captured index. -/
def findPlaceholder : Text → Option Nat
  | [] => none
  | c :: cs =>
    match matchPlaceholderAt (c :: cs) with
    | some n => some n
    | none => findPlaceholder cs

/-- Result of `convert_pre` for one `pre` element: a protected fenced block,
or a fall-through to the generic superclass rendering. -/
inductive PreOutput where
  | fenced (s : Text)
  | fallback
deriving Repr, DecidableEq

/-- Modelled from the spec: the generic renderer's default (unprotected)
code-block rendering — the external collaborator markdownify's own
`convert_pre`, which wraps the text in a plain triple-backtick fence.  Used
when placeholder resolution fails or no placeholder is present. -/
def defaultPre (t : Text) : Text :=
  '\n' :: ("```".toList ++ '\n' :: t ++ '\n' :: "```".toList ++ ['\n'])

/-- Embeds `converter.py` lines 114-128, `CodeSafeConverter.convert_pre`:
search the element text for a placeholder; resolve the embedded index against
the buffer; on success emit the fenced block; on a missing record (the
`IndexError` handler) or a missing placeholder fall through to the default
rendering. -/
def convertPre (blocks : List CodeBlock) (text : Text) : PreOutput :=
  match findPlaceholder text with
  | some idx =>
    match blocks[idx]? with
    | some b => PreOutput.fenced (emitFence b)
    | none => PreOutput.fallback
  | none => PreOutput.fallback

/-- A sanitized element tree: an element with tag, class attributes and
children, or a text node. -/
inductive Node where
  | elem (tag : Text) (classes : List Text) (children : List Node)
  | text (s : Text)

mutual
/-- BeautifulSoup `.text`: concatenation of all descendant text nodes. -/
def textContent : Node → Text
  | .text s => s
  | .elem _ _ children => textContentList children

/-- Concatenated text of a list of sibling nodes. -/
def textContentList : List Node → Text
  | [] => []
  | n :: ns => textContent n ++ textContentList ns
end

/-- The fixed set of bare language names of `_get_code_language`. -/
def knownLangs : List Text :=
  ["python".toList, "js".toList, "javascript".toList, "html".toList,
   "css".toList, "bash".toList]

/-- Embeds `converter.py` lines 76-84, `_get_code_language`: first class with
the language marker keeps its suffix; a bare known name is kept; otherwise
empty. -/
def getCodeLanguage : List Text → Text
  | [] => []
  | cls :: rest =>
    if ("language-".toList).isPrefixOf cls then cls.drop 9
    else if knownLangs.contains cls then cls
    else getCodeLanguage rest

/-- The placeholder text for record index `i`. -/
def placeholderText (i : Nat) : Text :=
  "CODEBLOCK_".toList ++ (Nat.repr i).toList ++ "_END".toList

mutual
/-- BeautifulSoup `pre.find('code')`: first `code` descendant in preorder,
returning its classes and text. -/
def findCodeNode : Node → Option (List Text × Text)
  | .text _ => none
  | .elem tag cls children =>
    if tag = "code".toList then some (cls, textContentList children)
    else findCodeList children

/-- First `code` descendant among a list of sibling subtrees. -/
def findCodeList : List Node → Option (List Text × Text)
  | [] => none
  | n :: ns =>
    match findCodeNode n with
    | some r => some r
    | none => findCodeList ns
end

mutual
/-- `code.replace_with(placeholder)`: replace the first `code` descendant
with the placeholder text node; the Bool reports whether a replacement
happened in this subtree. -/
def replaceCodeNode (ph : Text) : Node → Node × Bool
  | .text s => (.text s, false)
  | .elem tag cls children =>
    if tag = "code".toList then (.text ph, true)
    else
      let r := replaceCodeList ph children
      (.elem tag cls r.1, r.2)

/-- Replace the first `code` descendant among sibling subtrees. -/
def replaceCodeList (ph : Text) : List Node → List Node × Bool
  | [] => ([], false)
  | n :: ns =>
    let r := replaceCodeNode ph n
    if r.2 then (r.1 :: ns, true)
    else
      let r2 := replaceCodeList ph ns
      (n :: r2.1, r2.2)
end

mutual
/-- Embeds `converter.py` lines 46-64, `_preserve_code_blocks`: for every
`pre` element with a `code` descendant, wrap the code text's backticks with
zero-width markers, append a `CodeBlock` record (language detected from the
code element's classes), and replace the code element with the placeholder
carrying the new record's index (the buffer length before appending). -/
def preserveNode (acc : List CodeBlock) : Node → Node × List CodeBlock
  | .text s => (.text s, acc)
  | .elem tag cls children =>
    if tag = "pre".toList then
      match findCodeList children with
      | some r =>
        let blk : CodeBlock := { content := wrapBackticks r.2, language := getCodeLanguage r.1 }
        (.elem tag cls (replaceCodeList (placeholderText acc.length) children).1, acc ++ [blk])
      | none =>
        let r := preserveList acc children
        (.elem tag cls r.1, r.2)
    else
      let r := preserveList acc children
      (.elem tag cls r.1, r.2)

/-- Code-block preservation over sibling subtrees, threading the buffer. -/
def preserveList (acc : List CodeBlock) : List Node → List Node × List CodeBlock
  | [] => ([], acc)
  | n :: ns =>
    let r := preserveNode acc n
    let r2 := preserveList r.2 ns
    (r.1 :: r2.1, r2.2)
end

/-- Embeds the `re.search` for three or more backticks of
`_wrap_raw_backticks`: does the text contain three consecutive backticks? -/
def hasTripleRun : Text → Bool
  | a :: b :: c :: rest =>
    (a == btick && b == btick && c == btick) || hasTripleRun (b :: c :: rest)
  | _ => false

mutual
/-- Embeds `converter.py` lines 66-74, `_wrap_raw_backticks`: every text node
containing a run of three or more backticks is replaced by a synthesized
`pre` element holding a `code` element holding that text. -/
def wrapRawBackticks : Node → Node
  | .text s =>
    if hasTripleRun s then
      .elem ("pre".toList) [] [.elem ("code".toList) [] [.text s]]
    else .text s
  | .elem tag cls children => .elem tag cls (wrapRawBackticksList children)

/-- Raw-backtick wrapping over sibling subtrees. -/
def wrapRawBackticksList : List Node → List Node
  | [] => []
  | n :: ns => wrapRawBackticks n :: wrapRawBackticksList ns
end

mutual
/-- Modelled from the spec: the generic renderer (markdownify) with the
`convert_pre` override — text nodes pass through, `pre` elements are routed
to `convertPre` (falling back to the default rendering), other elements
render their children in order. -/
def renderNode (blocks : List CodeBlock) : Node → Text
  | .text s => s
  | .elem tag _ children =>
    if tag = "pre".toList then
      match convertPre blocks (textContentList children) with
      | .fenced out => out
      | .fallback => defaultPre (textContentList children)
    else renderList blocks children

/-- Generic rendering of sibling subtrees. -/
def renderList (blocks : List CodeBlock) : List Node → Text
  | [] => []
  | n :: ns => renderNode blocks n ++ renderList blocks ns
end

/-- The maximal backtick run at the start of a line — the group captured by
the anchored fence regexes of the normalizer and the formatter. -/
def fenceRunOf (l : Text) : Text := l.takeWhile isBacktick

/-- Does the line start with four or more backticks (the fence-delimiter test
of `_normalize_code_fences`, line 154)? -/
def isFence4 (l : Text) : Bool := decide (4 ≤ (l.takeWhile isBacktick).length)

/-- Stack update of the `_normalize_code_fences` loop (lines 153-164): a
fence line pushes its fence run when the stack is empty and pops otherwise;
other lines leave the stack unchanged. -/
def fenceStep (stack : List Text) (line : Text) : List Text :=
  if isFence4 line then
    match stack with
    | [] => [fenceRunOf line]
    | _ :: fs => fs
  else stack

/-- Embeds `converter.py` lines 148-168, the fence-pairing loop of
`_normalize_code_fences`: a fence line is emitted as its own fence run when
it opens and as the popped opening fence when it closes; other lines pass
through; at end of input the remaining stack is flushed, top first. -/
def normalizeFencesGo (stack : List Text) : List Text → List Text
  | [] => stack
  | line :: rest =>
    (if isFence4 line then
      match stack with
      | [] => fenceRunOf line
      | f :: _ => f
    else line) :: normalizeFencesGo (fenceStep stack line) rest

/-- The fence-pairing loop started on the empty stack. -/
def normalizeFenceLines (lines : List Text) : List Text := normalizeFencesGo [] lines

/-- Embeds `converter.py` line 146, the cleanup substitution deleting a
literal `x0` that immediately follows a backtick; `afterTick` records whether
the previous character was a backtick. -/
def cleanupX0Aux (afterTick : Bool) : Text → Text
  | [] => []
  | 'x' :: '0' :: rest =>
    if afterTick then cleanupX0Aux false rest
    else 'x' :: cleanupX0Aux false ('0' :: rest)
  | c :: cs => c :: cleanupX0Aux (c == btick) cs

/-- The cleanup substitution over a whole document. -/
def cleanupX0 (md : Text) : Text := cleanupX0Aux false md

/-- Embeds `converter.py` line 185, the substitution of
`_escape_loose_backticks`: a maximal run of two or more backticks (enforced
by the backtick lookbehind `p` and the greedy match) is replaced by one
backslash per backtick followed by the run itself.  The scanner emits the
backslashes at the start of the run; the run's remaining backticks are copied
unchanged because the lookbehind blocks a second match inside the run. -/
def subLooseRuns (p : Option Char) : Text → Text
  | [] => []
  | c :: cs =>
    if c = btick ∧ p ≠ some btick ∧ cs.head? = some btick then
      List.replicate (1 + (cs.takeWhile isBacktick).length) '\\'
        ++ btick :: subLooseRuns (some btick) cs
    else c :: subLooseRuns (some c) cs

/-- The in/out-of-code-block toggle test of `_escape_loose_backticks`
(line 179): the stripped line starts with three backticks. -/
def startsWithTripleTick (l : Text) : Bool := ("```".toList).isPrefixOf (pyStrip l)

/-- Embeds `converter.py` lines 175-188, the line loop of
`_escape_loose_backticks`: toggle lines pass through and flip the flag,
in-code lines pass through, out-of-code lines receive the loose-run
substitution. -/
def escapeLooseGo (inCode : Bool) : List Text → List Text
  | [] => []
  | line :: rest =>
    if startsWithTripleTick line then line :: escapeLooseGo (!inCode) rest
    else if inCode then line :: escapeLooseGo inCode rest
    else subLooseRuns none line :: escapeLooseGo inCode rest

/-- Embeds `converter.py` lines 173-189, `_escape_loose_backticks`. -/
def escapeLooseBackticks (md : Text) : Text := joinNl (escapeLooseGo false (splitNl md))

/-- Modelled from the amended claim: each maximal run of two or more
backticks is escaped by inserting one backslash per backtick of the run
immediately before the whole run, which itself stays contiguous; all other
characters are unchanged. -/
def escapeLooseAmendedSpec : Text → Text
  | [] => []
  | c :: cs =>
    if c = btick then
      (if 2 ≤ 1 + (cs.takeWhile isBacktick).length then
        List.replicate (1 + (cs.takeWhile isBacktick).length) '\\'
      else [])
        ++ List.replicate (1 + (cs.takeWhile isBacktick).length) btick
        ++ escapeLooseAmendedSpec (cs.dropWhile isBacktick)
    else c :: escapeLooseAmendedSpec cs
termination_by l => l.length
decreasing_by
  · have h1 : (cs.dropWhile isBacktick).length ≤ cs.length :=
      (List.dropWhile_sublist isBacktick).length_le
    simp only [List.length_cons]
    omega
  · simp only [List.length_cons]
    omega

/-- The line loop of the Loose-Backtick Escaper with the amended per-line
substitution in place of the regex scanner. -/
def escapeLooseGoSpec (inCode : Bool) : List Text → List Text
  | [] => []
  | line :: rest =>
    if startsWithTripleTick line then line :: escapeLooseGoSpec (!inCode) rest
    else if inCode then line :: escapeLooseGoSpec inCode rest
    else escapeLooseAmendedSpec line :: escapeLooseGoSpec inCode rest

/-- Embeds `converter.py` lines 143-171, `_normalize_code_fences`: cleanup
substitution, fence-pairing loop, then the loose-backtick escape pass. -/
def normalizeCodeFences (md : Text) : Text :=
  escapeLooseBackticks (joinNl (normalizeFenceLines (splitNl (cleanupX0 md))))

/-- The metacharacter set of `_escape_md_in_content` (formatter.py line 72). -/
def escClassChars : Text :=
  ['#', '*', '_', '~', '|', '<', '>', '[', ']', '\x7b', '\x7d', '\x60', '-']

/-- Membership in the metacharacter set. -/
def escClass (c : Char) : Bool := escClassChars.contains c

/-- Embeds the substitution of `formatter.py` line 72: scan left to right; a
metacharacter whose preceding original character `p` is not a backslash is
prefixed with a backslash. -/
def escapeGo (p : Option Char) : Text → Text
  | [] => []
  | c :: cs =>
    if escClass c = true ∧ p ≠ some '\\' then '\\' :: c :: escapeGo (some c) cs
    else c :: escapeGo (some c) cs

/-- The per-line metacharacter escape of the Entry Escaper. -/
def escapeMdLine (l : Text) : Text := escapeGo none l

/-- Does the line start with three or more backticks (the fence test of
`_escape_md_in_content`, line 58)? -/
def isFence3 (l : Text) : Bool := decide (3 ≤ (l.takeWhile isBacktick).length)

/-- Embeds `formatter.py` lines 53-73, the line loop of
`_escape_md_in_content`: fence lines pass through and update the depth and
current fence; in-code lines pass through; other lines are escaped. -/
def escapeMdGo (depth : Int) (cf : Option Text) : List Text → List Text
  | [] => []
  | line :: rest =>
    if isFence3 line then
      match cf with
      | none => line :: escapeMdGo (depth + 1) (some (fenceRunOf line)) rest
      | some f =>
        if pyStrip line = f then line :: escapeMdGo (depth - 1) none rest
        else line :: escapeMdGo depth cf rest
    else if 0 < depth then line :: escapeMdGo depth cf rest
    else escapeMdLine line :: escapeMdGo depth cf rest

/-- Embeds `formatter.py` lines 51-75, `_escape_md_in_content`. -/
def escapeMdInContent (content : Text) : Text :=
  joinNl (escapeMdGo 0 none (splitNl content))

/-- The tree-rewriting phase of `convert` in source order (lines 37-38):
code-block preservation first, then raw-backtick wrapping, returning the
rewritten tree and the record buffer available to the renderer. -/
def extractionPhase (t : Node) : Node × List CodeBlock :=
  let r := preserveNode [] t
  (wrapRawBackticks r.1, r.2)

/-- The body of `convert` (lines 34-39): reset buffer, preserve code blocks,
wrap raw backticks, render, normalize fences. -/
def convertBody (soup : Node) : Text :=
  let r := preserveNode [] soup
  normalizeCodeFences (renderNode r.2 (wrapRawBackticks r.1))

/-- Embeds `converter.py` lines 26-44, `convert`, as a transition on the
converter object's buffer state.  The input is the parsed soup or an error
(modelling an exception raised while producing or processing it, which
`convert` re-raises).  Line 34 resets the buffer before the body runs — the
body therefore never reads the incoming state — and the `finally` clause
clears it again on the return path and on the error path alike. -/
def convert (_st : List CodeBlock) (input : Except Text Node) :
    Except Text Text × List CodeBlock :=
  match input with
  | .error e => (.error e, [])
  | .ok soup => (.ok (convertBody soup), [])

/-! ### Lemmas about the zero-width wrapping of code content -/

theorem head?_wrapBackticks (s : Text) :
    ∀ c, (wrapBackticks s).head? = some c → c ≠ btick := by
  cases s with
  | nil => intro c h; simp [wrapBackticks] at h
  | cons a s2 =>
    intro c h
    by_cases ha : a = btick
    · rw [show wrapBackticks (a :: s2) = zwsp :: btick :: zwsp :: wrapBackticks s2 by
        simp [wrapBackticks, ha]] at h
      simp only [List.head?_cons, Option.some.injEq] at h
      subst h
      decide
    · rw [show wrapBackticks (a :: s2) = a :: wrapBackticks s2 by
        simp [wrapBackticks, ha]] at h
      simp only [List.head?_cons, Option.some.injEq] at h
      subst h
      exact ha

theorem unwrap_cons_of_head_ne (c : Char) (t : Text)
    (h : ∀ d ds, t = d :: ds → d ≠ btick) :
    unwrapBackticks (c :: t) = c :: unwrapBackticks t := by
  match t with
  | [] => rfl
  | [d] => rfl
  | d :: e :: r =>
    have hd : d ≠ btick := h d (e :: r) rfl
    show unwrapBackticks (c :: d :: e :: r) = c :: unwrapBackticks (d :: e :: r)
    rw [show unwrapBackticks (c :: d :: e :: r)
        = if c = zwsp ∧ d = btick ∧ e = zwsp then btick :: unwrapBackticks r
          else c :: unwrapBackticks (d :: e :: r) from rfl]
    rw [if_neg (fun hcon => hd hcon.2.1)]

theorem unwrap_wrap (s : Text) : unwrapBackticks (wrapBackticks s) = s := by
  induction s with
  | nil => rfl
  | cons c cs ih =>
    by_cases hc : c = btick
    · subst hc
      rw [show wrapBackticks (btick :: cs) = zwsp :: btick :: zwsp :: wrapBackticks cs by
        simp [wrapBackticks]]
      rw [show unwrapBackticks (zwsp :: btick :: zwsp :: wrapBackticks cs)
          = btick :: unwrapBackticks (wrapBackticks cs) by
        rw [show unwrapBackticks (zwsp :: btick :: zwsp :: wrapBackticks cs)
            = if zwsp = zwsp ∧ btick = btick ∧ zwsp = zwsp then
                btick :: unwrapBackticks (wrapBackticks cs)
              else zwsp :: unwrapBackticks (btick :: zwsp :: wrapBackticks cs) from rfl]
        rw [if_pos ⟨rfl, rfl, rfl⟩]]
      rw [ih]
    · rw [show wrapBackticks (c :: cs) = c :: wrapBackticks cs by simp [wrapBackticks, hc]]
      rw [unwrap_cons_of_head_ne c (wrapBackticks cs)
        (fun d ds hds => head?_wrapBackticks cs d (by rw [hds]; rfl)), ih]

/-- C4: literal code text (including any backticks) fed through the Code
Extractor's zero-width wrapping and then the Fence Emitter is recovered
exactly: the emitter's unwrapping inverts the extractor's wrapping, and the
emitted block is exactly the fence line, the optional language tag, the
original literal content, and the closing fence of the same length. -/
theorem code_content_roundtrip (s lang : Text) :
    unwrapBackticks (wrapBackticks s) = s
    ∧ emitFence { content := wrapBackticks s, language := lang } =
      '\n' :: (List.replicate (fenceLength s) btick
        ++ (if lang = [] then [] else lang ++ ['\n'])
        ++ s ++ '\n' :: List.replicate (fenceLength s) btick ++ ['\n']) := by
  refine ⟨unwrap_wrap s, ?_⟩
  simp only [emitFence, unwrap_wrap]

/-! ### Lemmas about the maximal backtick run and the fence length -/

theorem le_foldr_max_append (x y : List Nat) :
    List.foldr Nat.max 0 y ≤ List.foldr Nat.max 0 (x ++ y) := by
  induction x with
  | nil => simp
  | cons a x2 ih =>
    calc List.foldr Nat.max 0 y ≤ List.foldr Nat.max 0 (x2 ++ y) := ih
    _ ≤ Nat.max a (List.foldr Nat.max 0 (x2 ++ y)) := Nat.le_max_right a _
    _ = List.foldr Nat.max 0 ((a :: x2) ++ y) := rfl

theorem backtickRunsAux_replicate (m : Nat) (b : Text) :
    ∀ cur, backtickRunsAux cur (List.replicate m btick ++ b)
      = backtickRunsAux (cur + m) b := by
  induction m with
  | zero => intro cur; simp [List.replicate]
  | succ m2 ih =>
    intro cur
    rw [List.replicate_succ, List.cons_append]
    rw [show backtickRunsAux cur (btick :: (List.replicate m2 btick ++ b))
        = backtickRunsAux (cur + 1) (List.replicate m2 btick ++ b) by
      simp [backtickRunsAux]]
    rw [ih (cur + 1)]
    congr 1
    omega

theorem le_foldr_backtickRunsAux (b : Text) :
    ∀ cur, 1 ≤ cur → cur ≤ List.foldr Nat.max 0 (backtickRunsAux cur b) := by
  induction b with
  | nil =>
    intro cur h
    rw [show backtickRunsAux cur [] = if cur = 0 then [] else [cur] from rfl]
    rw [if_neg (by omega)]
    simp
  | cons c cs ih =>
    intro cur h
    by_cases hc : c = btick
    · rw [show backtickRunsAux cur (c :: cs) = backtickRunsAux (cur + 1) cs by
        simp [backtickRunsAux, hc]]
      exact le_trans (by omega) (ih (cur + 1) (by omega))
    · rw [show backtickRunsAux cur (c :: cs)
          = (if cur = 0 then [] else [cur]) ++ backtickRunsAux 0 cs by
        simp [backtickRunsAux, hc]]
      rw [if_neg (by omega)]
      exact le_trans (Nat.le_max_left cur _) le_rfl

theorem run_le_maxBackticks (k : Nat) (hk : 1 ≤ k) (a b : Text) :
    k ≤ maxBackticks (a ++ List.replicate k btick ++ b) := by
  have hmem : btick ∈ a ++ List.replicate k btick ++ b := by
    refine List.mem_append.mpr (Or.inl (List.mem_append.mpr (Or.inr ?_)))
    exact List.mem_replicate.mpr ⟨by omega, rfl⟩
  have hcont : (a ++ List.replicate k btick ++ b).contains btick = true := by
    simpa using hmem
  rw [maxBackticks, if_pos hcont, backtickRunLengths]
  rw [List.append_assoc]
  suffices H : ∀ (a2 : Text) (cur : Nat),
      k ≤ List.foldr Nat.max 0 (backtickRunsAux cur (a2 ++ (List.replicate k btick ++ b))) by
    exact H a 0
  intro a2
  induction a2 with
  | nil =>
    intro cur
    rw [List.nil_append, backtickRunsAux_replicate k b cur]
    exact le_trans (by omega) (le_foldr_backtickRunsAux b (cur + k) (by omega))
  | cons c a3 ih =>
    intro cur
    by_cases hc : c = btick
    · rw [List.cons_append]
      rw [show backtickRunsAux cur (c :: (a3 ++ (List.replicate k btick ++ b)))
          = backtickRunsAux (cur + 1) (a3 ++ (List.replicate k btick ++ b)) by
        simp [backtickRunsAux, hc]]
      exact ih (cur + 1)
    · rw [List.cons_append]
      rw [show backtickRunsAux cur (c :: (a3 ++ (List.replicate k btick ++ b)))
          = (if cur = 0 then [] else [cur])
            ++ backtickRunsAux 0 (a3 ++ (List.replicate k btick ++ b)) by
        simp [backtickRunsAux, hc]]
      exact le_trans (ih 0) (le_foldr_max_append _ _)

/-- C1: for every CodeBlock record consumed by the Fence Emitter, the fence
length computed by `convert_pre` equals `max(4, max_run + 1)` over the
unwrapped literal content; hence for any content containing a contiguous
backtick run of length `k`, the fence length is strictly greater than `k` and
at least `4`. -/
theorem fence_emitter_length_safe (blk : CodeBlock) (a b : Text) (k : Nat)
    (h : unwrapBackticks blk.content = a ++ List.replicate k btick ++ b) :
    fenceLength (unwrapBackticks blk.content)
      = Nat.max 4 (maxBackticks (unwrapBackticks blk.content) + 1)
    ∧ k < fenceLength (unwrapBackticks blk.content)
    ∧ 4 ≤ fenceLength (unwrapBackticks blk.content) := by
  refine ⟨rfl, ?_, Nat.le_max_left 4 _⟩
  cases k with
  | zero => exact lt_of_lt_of_le (by omega) (Nat.le_max_left 4 _)
  | succ j =>
    have hle : j + 1 ≤ maxBackticks (unwrapBackticks blk.content) := by
      rw [h]
      exact run_le_maxBackticks (j + 1) (by omega) a b
    exact lt_of_lt_of_le (by omega) (Nat.le_max_right 4 _)

/-- Witness for C1 at the concrete record whose stored content is
`x\x60\x60y`: the run of length 2 forces a fence strictly longer than 2 and
at least 4. -/
theorem fence_emitter_length_safe_witness :
    fenceLength (unwrapBackticks ("x``y".toList))
      = Nat.max 4 (maxBackticks (unwrapBackticks ("x``y".toList)) + 1)
    ∧ 2 < fenceLength (unwrapBackticks ("x``y".toList))
    ∧ 4 ≤ fenceLength (unwrapBackticks ("x``y".toList)) :=
  fence_emitter_length_safe { content := "x``y".toList, language := [] }
    (['x']) (['y']) 2 (by decide)

/-- C8: a placeholder whose embedded index has no corresponding CodeBlock
record in the buffer makes `convert_pre` fall through to the default
(unprotected) rendering of that one element instead of failing. -/
theorem placeholder_failure_fallback (blocks : List CodeBlock) (txt : Text)
    (idx : Nat) (h1 : findPlaceholder txt = some idx)
    (h2 : blocks.length ≤ idx) :
    convertPre blocks txt = PreOutput.fallback := by
  unfold convertPre
  rw [h1]
  show (match blocks[idx]? with
    | some b => PreOutput.fenced (emitFence b)
    | none => PreOutput.fallback) = PreOutput.fallback
  rw [List.getElem?_eq_none h2]

/-- Witness for C8: the placeholder with index 0 against an empty buffer
degrades to the fallback rendering. -/
theorem placeholder_failure_fallback_witness :
    convertPre [] ("CODEBLOCK_0_END".toList) = PreOutput.fallback :=
  placeholder_failure_fallback [] ("CODEBLOCK_0_END".toList) 0 (by decide)
    (by decide)

/-! ### Lemmas about the fence-pairing loop -/

theorem takeWhile_takeWhile_self (p : Char → Bool) (l : Text) :
    (l.takeWhile p).takeWhile p = l.takeWhile p := by
  induction l with
  | nil => rfl
  | cons c cs ih =>
    by_cases hc : p c
    · rw [List.takeWhile_cons_of_pos hc, List.takeWhile_cons_of_pos hc, ih]
    · rw [List.takeWhile_cons_of_neg hc]
      rfl

theorem fenceRunOf_fenceRunOf (l : Text) : fenceRunOf (fenceRunOf l) = fenceRunOf l :=
  takeWhile_takeWhile_self isBacktick l

theorem isFence4_fenceRunOf (l : Text) (h : isFence4 l = true) :
    isFence4 (fenceRunOf l) = true := by
  unfold isFence4 at h ⊢
  rw [show (fenceRunOf l).takeWhile isBacktick = l.takeWhile isBacktick from
    takeWhile_takeWhile_self isBacktick l]
  exact h

theorem foldl_fenceStep_self (s : List Text) (h : ∀ f ∈ s, isFence4 f = true) :
    List.foldl fenceStep s s = [] := by
  induction s with
  | nil => rfl
  | cons f fs ih =>
    rw [List.foldl_cons]
    rw [show fenceStep (f :: fs) f = fs by
      simp [fenceStep, h f (List.mem_cons_self f fs)]]
    exact ih (fun g hg => h g (List.mem_cons_of_mem f hg))

theorem foldl_fenceStep_normalizeFencesGo (lines : List Text) :
    ∀ stack, (∀ f ∈ stack, isFence4 f = true ∧ fenceRunOf f = f) →
    List.foldl fenceStep stack (normalizeFencesGo stack lines) = [] := by
  induction lines with
  | nil =>
    intro stack h
    have hbase : normalizeFencesGo stack ([] : List Text) = stack := rfl
    rw [hbase]
    exact foldl_fenceStep_self stack (fun f hf => (h f hf).1)
  | cons line rest ih =>
    intro stack h
    by_cases hf : isFence4 line = true
    · cases stack with
      | nil =>
        have h1 : normalizeFencesGo [] (line :: rest)
            = fenceRunOf line :: normalizeFencesGo [fenceRunOf line] rest := by
          rw [normalizeFencesGo]
          simp [fenceStep, hf]
        rw [h1, List.foldl_cons]
        rw [show fenceStep [] (fenceRunOf line) = [fenceRunOf (fenceRunOf line)] by
          simp [fenceStep, isFence4_fenceRunOf line hf]]
        rw [fenceRunOf_fenceRunOf]
        refine ih [fenceRunOf line] ?_
        intro f hf2
        rw [List.mem_singleton] at hf2
        subst hf2
        exact ⟨isFence4_fenceRunOf line hf, fenceRunOf_fenceRunOf line⟩
      | cons f fs =>
        obtain ⟨hff, hfr⟩ := h f (List.mem_cons_self f fs)
        have h1 : normalizeFencesGo (f :: fs) (line :: rest)
            = f :: normalizeFencesGo fs rest := by
          rw [normalizeFencesGo]
          simp [fenceStep, hf]
        rw [h1, List.foldl_cons]
        rw [show fenceStep (f :: fs) f = fs by simp [fenceStep, hff]]
        exact ih fs (fun g hg => h g (List.mem_cons_of_mem f hg))
    · have h1 : normalizeFencesGo stack (line :: rest)
          = line :: normalizeFencesGo stack rest := by
        rw [normalizeFencesGo.eq_def]
        simp [fenceStep, hf]
      rw [h1, List.foldl_cons]
      rw [show fenceStep stack line = stack by simp [fenceStep, hf]]
      exact ih stack h

theorem foldl_fenceStep_mod (lines : List Text) :
    ∀ st, (List.foldl fenceStep st lines).length % 2
      = (st.length + lines.countP (fun l => isFence4 l)) % 2 := by
  induction lines with
  | nil => intro st; simp
  | cons line rest ih =>
    intro st
    rw [List.foldl_cons, ih (fenceStep st line), List.countP_cons]
    by_cases hf : isFence4 line = true
    · cases st with
      | nil =>
        rw [show fenceStep [] line = [fenceRunOf line] by simp [fenceStep, hf]]
        simp [hf]
        omega
      | cons f fs =>
        rw [show fenceStep (f :: fs) line = fs by simp [fenceStep, hf]]
        simp [hf]
        omega
    · rw [show fenceStep st line = st by simp [fenceStep, hf]]
      simp [hf]

theorem fenceStep_length_le (st : List Text) (line : Text) (h : st.length ≤ 1) :
    (fenceStep st line).length ≤ 1 := by
  by_cases hf : isFence4 line = true
  · cases st with
    | nil => simp [fenceStep, hf]
    | cons f fs =>
      rw [show fenceStep (f :: fs) line = fs by simp [fenceStep, hf]]
      simp only [List.length_cons] at h
      omega
  · rw [show fenceStep st line = st by simp [fenceStep, hf]]
    exact h

theorem foldl_fenceStep_length_le (lines : List Text) :
    ∀ st, st.length ≤ 1 → (List.foldl fenceStep st lines).length ≤ 1 := by
  induction lines with
  | nil => intro st h; simpa using h
  | cons line rest ih =>
    intro st h
    rw [List.foldl_cons]
    exact ih (fenceStep st line) (fenceStep_length_le st line h)

theorem scanl_fenceStep_le (lines : List Text) :
    ∀ st, st.length ≤ 1 → ∀ x ∈ List.scanl fenceStep st lines, x.length ≤ 1 := by
  induction lines with
  | nil =>
    intro st h x hx
    simp [List.scanl] at hx
    subst hx
    exact h
  | cons line rest ih =>
    intro st h x hx
    rw [List.scanl] at hx
    rcases List.mem_cons.mp hx with h1 | h2
    · subst h1; exact h
    · exact ih (fenceStep st line) (fenceStep_length_le st line h) x h2

theorem normalizeFencesGo_self (s : List Text) (h : ∀ f ∈ s, isFence4 f = true) :
    normalizeFencesGo s s = s := by
  induction s with
  | nil => rfl
  | cons f fs ih =>
    have hf : isFence4 f = true := h f (List.mem_cons_self f fs)
    rw [normalizeFencesGo]
    rw [show fenceStep (f :: fs) f = fs by simp [fenceStep, hf]]
    simp only [hf, if_pos]
    rw [ih (fun g hg => h g (List.mem_cons_of_mem f hg))]

theorem normalizeFencesGo_idem (lines : List Text) :
    ∀ stack, (∀ f ∈ stack, isFence4 f = true ∧ fenceRunOf f = f) →
    normalizeFencesGo stack (normalizeFencesGo stack lines)
      = normalizeFencesGo stack lines := by
  induction lines with
  | nil =>
    intro stack h
    have hbase : normalizeFencesGo stack ([] : List Text) = stack := rfl
    rw [hbase]
    exact normalizeFencesGo_self stack (fun f hf => (h f hf).1)
  | cons line rest ih =>
    intro stack h
    by_cases hf : isFence4 line = true
    · cases stack with
      | nil =>
        have hf2 : isFence4 (fenceRunOf line) = true := isFence4_fenceRunOf line hf
        have h1 : normalizeFencesGo [] (line :: rest)
            = fenceRunOf line :: normalizeFencesGo [fenceRunOf line] rest := by
          rw [normalizeFencesGo]
          simp [fenceStep, hf]
        have h2 : ∀ tail, normalizeFencesGo [] (fenceRunOf line :: tail)
            = fenceRunOf line :: normalizeFencesGo [fenceRunOf line] tail := by
          intro tail
          rw [normalizeFencesGo]
          simp [fenceStep, hf2, fenceRunOf_fenceRunOf]
        rw [h1, h2]
        rw [ih [fenceRunOf line] (fun f hf3 => by
          rw [List.mem_singleton] at hf3
          subst hf3
          exact ⟨hf2, fenceRunOf_fenceRunOf line⟩)]
      | cons f fs =>
        obtain ⟨hff, hfr⟩ := h f (List.mem_cons_self f fs)
        have h1 : normalizeFencesGo (f :: fs) (line :: rest)
            = f :: normalizeFencesGo fs rest := by
          rw [normalizeFencesGo]
          simp [fenceStep, hf]
        have h2 : ∀ tail, normalizeFencesGo (f :: fs) (f :: tail)
            = f :: normalizeFencesGo fs tail := by
          intro tail
          rw [normalizeFencesGo]
          simp [fenceStep, hff]
        rw [h1, h2]
        rw [ih fs (fun g hg => h g (List.mem_cons_of_mem f hg))]
    · have h1 : ∀ st2, (∀ f ∈ st2, isFence4 f = true ∧ fenceRunOf f = f) →
          ∀ tail, normalizeFencesGo st2 (line :: tail)
            = line :: normalizeFencesGo st2 tail := by
        intro st2 _ tail
        rw [normalizeFencesGo.eq_def]
        simp [fenceStep, hf]
      rw [h1 stack h, h1 stack h]
      rw [ih stack h]

/-- C2: the Fence Normalizer's loop pairs fence-delimiter lines by a LIFO
stack (the popped opening fence — not the literal line read — is emitted as
the closing delimiter, and the remaining stack is flushed at end of input),
so its output, scanned again with the same stack discipline, ends with an
empty stack: it has an even number of fence lines, every opener has exactly
one closer, no fence dangles open, and re-normalizing the output changes
nothing. -/
theorem fence_normalizer_balance (lines : List Text) :
    List.foldl fenceStep [] (normalizeFenceLines lines) = []
    ∧ (normalizeFenceLines lines).countP (fun l => isFence4 l) % 2 = 0
    ∧ normalizeFenceLines (normalizeFenceLines lines) = normalizeFenceLines lines := by
  have h1 : List.foldl fenceStep [] (normalizeFenceLines lines) = [] :=
    foldl_fenceStep_normalizeFencesGo lines [] (by simp)
  refine ⟨h1, ?_, ?_⟩
  · have h2 := foldl_fenceStep_mod (normalizeFenceLines lines) []
    rw [h1] at h2
    simpa using h2.symm
  · exact normalizeFencesGo_idem lines [] (by simp)

/-- C10: throughout the Fence Normalizer's line loop (whose successive stack
states are exactly the `List.scanl` of `fenceStep` from the empty stack), the
fence stack never holds more than one element, and the final stack size is
the parity of the number of fence lines — fence-delimiter lines strictly
alternate between opening and closing roles, so nested fences are impossible. -/
theorem fence_stack_at_most_one (lines : List Text) :
    ((List.scanl fenceStep [] lines).all fun st => decide (st.length ≤ 1)) = true
    ∧ (List.foldl fenceStep [] lines).length
      = lines.countP (fun l => isFence4 l) % 2 := by
  constructor
  · rw [List.all_eq_true]
    intro st hst
    have h := scanl_fenceStep_le lines [] (by simp) st hst
    simpa using h
  · have h1 := foldl_fenceStep_mod lines []
    have h2 := foldl_fenceStep_length_le lines [] (by simp)
    simp only [List.length_nil, Nat.zero_add] at h1
    omega

/-! ### Buffer scoping and the quarantine ordering -/

/-- C9: `convert` empties the document-scoped CodeBlock buffer before the
conversion begins — so its result never depends on the incoming buffer
state — and the `finally` clause empties it again after it finishes, on the
normal return path and on the error path alike: no stale buffer state leaks
from one document's conversion into the next. -/
theorem conversion_buffer_reset (st1 st2 : List CodeBlock)
    (input : Except Text Node) :
    (convert st1 input).2 = [] ∧ (convert st1 input).1 = (convert st2 input).1 := by
  cases input with
  | error e => exact ⟨rfl, rfl⟩
  | ok soup => exact ⟨rfl, rfl⟩

/-- C5 counterexample: a document whose only backtick-bearing content is a
text node holding five backticks outside any code element.  Because `convert`
runs `_preserve_code_blocks` before `_wrap_raw_backticks`, the synthesized
code wrapper is never routed through the extractor: the extraction phase ends
with an empty record buffer, not with the CodeBlockRecord (with empty
language tag) the claim requires. -/
theorem quarantine_no_record_counterexample :
    (extractionPhase (Node.elem ("div".toList) [] [Node.text ("`````".toList)])).2
      = ([] : List CodeBlock)
    ∧ ([] : List CodeBlock)
      ≠ [{ content := wrapBackticks ("`````".toList), language := [] }] := by
  exact ⟨rfl, by decide⟩

/-- C5 amended: the Loose-Fence Quarantiner wraps every text node containing
a run of 3+ backticks in a synthesized `pre > code` element, but because it
runs after the Code Extractor it produces no CodeBlockRecord: the record
buffer of the extraction phase is exactly the one `_preserve_code_blocks`
alone produced, and the synthesized element is left to the generic renderer's
default code-block handling. -/
theorem quarantine_amended (t : Node) (s : Text) (h : hasTripleRun s = true) :
    (extractionPhase t).2 = (preserveNode [] t).2
    ∧ wrapRawBackticks (Node.text s)
      = Node.elem ("pre".toList) [] [Node.elem ("code".toList) [] [Node.text s]] := by
  constructor
  · rfl
  · simp only [wrapRawBackticks]
    rw [if_pos h]

/-- Witness for C5 (amended) at an empty document and a text node of three
backticks. -/
theorem quarantine_amended_witness :
    (extractionPhase (Node.text [])).2 = (preserveNode [] (Node.text [])).2
    ∧ wrapRawBackticks (Node.text ("```".toList))
      = Node.elem ("pre".toList) []
          [Node.elem ("code".toList) [] [Node.text ("```".toList)]] :=
  quarantine_amended (Node.text []) ("```".toList) (by decide)

/-! ### Lemmas about the Entry Escaper's per-line substitution -/

theorem escClass_bs : escClass '\\' = false := by decide

theorem escClass_btick : escClass btick = true := by decide

theorem escapeGo_cons (p : Option Char) (c : Char) (cs : Text) :
    escapeGo p (c :: cs)
      = if escClass c = true ∧ p ≠ some '\\' then '\\' :: c :: escapeGo (some c) cs
        else c :: escapeGo (some c) cs := rfl

theorem escapeGo_idem (l : Text) : ∀ p, escapeGo p (escapeGo p l) = escapeGo p l := by
  induction l with
  | nil => intro p; rfl
  | cons c cs ih =>
    intro p
    by_cases hcp : escClass c = true ∧ p ≠ some '\\'
    · rw [escapeGo_cons, if_pos hcp]
      rw [escapeGo_cons, if_neg (fun hcon => by
        rw [escClass_bs] at hcon
        exact Bool.noConfusion hcon.1)]
      rw [escapeGo_cons, if_neg (fun hcon => hcon.2 rfl)]
      rw [ih (some c)]
    · rw [escapeGo_cons, if_neg hcp]
      rw [escapeGo_cons, if_neg hcp]
      rw [ih (some c)]

theorem isFence3_escapeMdLine (l : Text) : isFence3 (escapeMdLine l) = false := by
  unfold escapeMdLine
  cases l with
  | nil => rfl
  | cons c cs =>
    by_cases hcp : escClass c = true ∧ (none : Option Char) ≠ some '\\'
    · rw [escapeGo_cons, if_pos hcp]
      unfold isFence3
      rw [List.takeWhile_cons_of_neg (by decide)]
      rfl
    · rw [escapeGo_cons, if_neg hcp]
      have hc : escClass c = false := by
        rcases Bool.eq_false_or_eq_true (escClass c) with hb | hb
        · exact absurd ⟨hb, by simp⟩ hcp
        · exact hb
      have hcb : ¬ isBacktick c = true := by
        intro hb
        simp only [isBacktick, beq_iff_eq] at hb
        rw [hb, escClass_btick] at hc
        exact Bool.noConfusion hc
      unfold isFence3
      rw [List.takeWhile_cons_of_neg hcb]
      rfl

theorem escapeMdGo_cons (d : Int) (cf : Option Text) (line : Text)
    (rest : List Text) :
    escapeMdGo d cf (line :: rest)
      = if isFence3 line then
          match cf with
          | none => line :: escapeMdGo (d + 1) (some (fenceRunOf line)) rest
          | some f =>
            if pyStrip line = f then line :: escapeMdGo (d - 1) none rest
            else line :: escapeMdGo d cf rest
        else if 0 < d then line :: escapeMdGo d cf rest
        else escapeMdLine line :: escapeMdGo d cf rest := by
  rw [escapeMdGo.eq_def]

theorem escapeMdGo_idem (ls : List Text) : ∀ (d : Int) (cf : Option Text),
    escapeMdGo d cf (escapeMdGo d cf ls) = escapeMdGo d cf ls := by
  induction ls with
  | nil => intro d cf; rfl
  | cons line rest ih =>
    intro d cf
    by_cases hf : isFence3 line = true
    · cases cf with
      | none =>
        rw [escapeMdGo_cons d none line rest, if_pos hf]
        rw [escapeMdGo_cons d none line _, if_pos hf]
        rw [ih (d + 1) (some (fenceRunOf line))]
      | some f =>
        by_cases hs : pyStrip line = f
        · rw [escapeMdGo_cons d (some f) line rest, if_pos hf]
          rw [show (match some f with
              | none => line :: escapeMdGo (d + 1) (some (fenceRunOf line)) rest
              | some g =>
                if pyStrip line = g then line :: escapeMdGo (d - 1) none rest
                else line :: escapeMdGo d (some f) rest)
              = if pyStrip line = f then line :: escapeMdGo (d - 1) none rest
                else line :: escapeMdGo d (some f) rest from rfl]
          rw [if_pos hs]
          rw [escapeMdGo_cons d (some f) line _, if_pos hf]
          rw [show (match some f with
              | none =>
                line :: escapeMdGo (d + 1) (some (fenceRunOf line))
                  (escapeMdGo (d - 1) none rest)
              | some g =>
                if pyStrip line = g then
                  line :: escapeMdGo (d - 1) none (escapeMdGo (d - 1) none rest)
                else line :: escapeMdGo d (some f) (escapeMdGo (d - 1) none rest))
              = if pyStrip line = f then
                  line :: escapeMdGo (d - 1) none (escapeMdGo (d - 1) none rest)
                else line :: escapeMdGo d (some f) (escapeMdGo (d - 1) none rest)
              from rfl]
          rw [if_pos hs]
          rw [ih (d - 1) none]
        · rw [escapeMdGo_cons d (some f) line rest, if_pos hf]
          rw [show (match some f with
              | none => line :: escapeMdGo (d + 1) (some (fenceRunOf line)) rest
              | some g =>
                if pyStrip line = g then line :: escapeMdGo (d - 1) none rest
                else line :: escapeMdGo d (some f) rest)
              = if pyStrip line = f then line :: escapeMdGo (d - 1) none rest
                else line :: escapeMdGo d (some f) rest from rfl]
          rw [if_neg hs]
          rw [escapeMdGo_cons d (some f) line _, if_pos hf]
          rw [show (match some f with
              | none =>
                line :: escapeMdGo (d + 1) (some (fenceRunOf line))
                  (escapeMdGo d (some f) rest)
              | some g =>
                if pyStrip line = g then
                  line :: escapeMdGo (d - 1) none (escapeMdGo d (some f) rest)
                else line :: escapeMdGo d (some f) (escapeMdGo d (some f) rest))
              = if pyStrip line = f then
                  line :: escapeMdGo (d - 1) none (escapeMdGo d (some f) rest)
                else line :: escapeMdGo d (some f) (escapeMdGo d (some f) rest)
              from rfl]
          rw [if_neg hs]
          rw [ih d (some f)]
    · by_cases hd : (0 : Int) < d
      · rw [escapeMdGo_cons d cf line rest, if_neg hf, if_pos hd]
        rw [escapeMdGo_cons d cf line _, if_neg hf, if_pos hd]
        rw [ih d cf]
      · rw [escapeMdGo_cons d cf line rest, if_neg hf, if_neg hd]
        rw [escapeMdGo_cons d cf (escapeMdLine line) _]
        rw [if_neg (by rw [isFence3_escapeMdLine line]; exact Bool.noConfusion)]
        rw [if_neg hd]
        rw [show escapeMdLine (escapeMdLine line) = escapeMdLine line from
          escapeGo_idem line none]
        rw [ih d cf]

theorem escapeMdGo_cons_none (d : Int) (line : Text) (rest : List Text) :
    escapeMdGo d none (line :: rest)
      = if isFence3 line then line :: escapeMdGo (d + 1) (some (fenceRunOf line)) rest
        else if 0 < d then line :: escapeMdGo d none rest
        else escapeMdLine line :: escapeMdGo d none rest := by
  rw [escapeMdGo_cons]

theorem escapeMdGo_cons_some (d : Int) (f : Text) (line : Text) (rest : List Text) :
    escapeMdGo d (some f) (line :: rest)
      = if isFence3 line then
          (if pyStrip line = f then line :: escapeMdGo (d - 1) none rest
           else line :: escapeMdGo d (some f) rest)
        else if 0 < d then line :: escapeMdGo d (some f) rest
        else escapeMdLine line :: escapeMdGo d (some f) rest := by
  rw [escapeMdGo_cons]

theorem splitNl_cons (c : Char) (cs : Text) :
    splitNl (c :: cs)
      = if c = '\n' then [] :: splitNl cs
        else match splitNl cs with
          | [] => [[c]]
          | l :: ls => (c :: l) :: ls := by
  rw [splitNl.eq_def]

theorem splitNl_ne_nil (s : Text) : splitNl s ≠ [] := by
  cases s with
  | nil => simp [splitNl]
  | cons c cs =>
    rw [splitNl_cons]
    by_cases hc : c = '\n'
    · rw [if_pos hc]
      simp
    · rw [if_neg hc]
      cases hsp : splitNl cs with
      | nil => simp
      | cons l ls => simp

theorem nl_not_mem_splitNl (s : Text) : ∀ l ∈ splitNl s, '\n' ∉ l := by
  induction s with
  | nil =>
    intro l hl
    rw [show splitNl [] = [[]] from rfl] at hl
    rw [List.mem_singleton] at hl
    subst hl
    simp
  | cons c cs ih =>
    intro l hl
    rw [splitNl_cons] at hl
    by_cases hc : c = '\n'
    · rw [if_pos hc] at hl
      rcases List.mem_cons.mp hl with h1 | h2
      · subst h1; simp
      · exact ih l h2
    · rw [if_neg hc] at hl
      cases hsp : splitNl cs with
      | nil =>
        rw [hsp] at hl
        rw [List.mem_singleton] at hl
        subst hl
        intro hmem
        rw [List.mem_singleton] at hmem
        exact hc hmem.symm
      | cons m ms =>
        rw [hsp] at hl
        rcases List.mem_cons.mp hl with h1 | h2
        · subst h1
          intro hmem
          rcases List.mem_cons.mp hmem with h3 | h4
          · exact hc h3.symm
          · exact ih m (by rw [hsp]; exact List.mem_cons_self m ms) h4
        · exact ih l (by rw [hsp]; exact List.mem_cons_of_mem m h2)

theorem splitNl_no_nl (l : Text) (h : '\n' ∉ l) : splitNl l = [l] := by
  induction l with
  | nil => rfl
  | cons c cs ih =>
    have hc : ¬ c = '\n' := fun hcc => h (hcc ▸ List.mem_cons_self c cs)
    rw [splitNl_cons, if_neg hc, ih (fun hm => h (List.mem_cons_of_mem c hm))]

theorem splitNl_append_nl (l r : Text) (h : '\n' ∉ l) :
    splitNl (l ++ '\n' :: r) = l :: splitNl r := by
  induction l with
  | nil =>
    rw [List.nil_append, splitNl_cons, if_pos rfl]
  | cons c l2 ih =>
    have hc : ¬ c = '\n' := fun hcc => h (hcc ▸ List.mem_cons_self c l2)
    rw [List.cons_append, splitNl_cons, if_neg hc,
      ih (fun hm => h (List.mem_cons_of_mem c hm))]

theorem splitNl_joinNl (ls : List Text) : ls ≠ [] → (∀ l ∈ ls, '\n' ∉ l) →
    splitNl (joinNl ls) = ls := by
  induction ls with
  | nil => intro h _; exact absurd rfl h
  | cons l ls2 ih =>
    intro _ h2
    cases ls2 with
    | nil =>
      rw [show joinNl [l] = l from rfl]
      exact splitNl_no_nl l (h2 l (List.mem_cons_self l []))
    | cons m ms =>
      rw [show joinNl (l :: m :: ms) = l ++ '\n' :: joinNl (m :: ms) from rfl]
      rw [splitNl_append_nl l _ (h2 l (List.mem_cons_self l (m :: ms)))]
      rw [ih (by simp) (fun x hx => h2 x (List.mem_cons_of_mem l hx))]

theorem escapeMdGo_length (ls : List Text) : ∀ (d : Int) (cf : Option Text),
    (escapeMdGo d cf ls).length = ls.length := by
  induction ls with
  | nil => intro d cf; rfl
  | cons line rest ih =>
    intro d cf
    cases cf with
    | none =>
      rw [escapeMdGo_cons_none]
      by_cases hf : isFence3 line = true
      · rw [if_pos hf]
        simp [ih]
      · rw [if_neg hf]
        by_cases hd : (0 : Int) < d
        · rw [if_pos hd]; simp [ih]
        · rw [if_neg hd]; simp [ih]
    | some f =>
      rw [escapeMdGo_cons_some]
      by_cases hf : isFence3 line = true
      · rw [if_pos hf]
        by_cases hs : pyStrip line = f
        · rw [if_pos hs]; simp [ih]
        · rw [if_neg hs]; simp [ih]
      · rw [if_neg hf]
        by_cases hd : (0 : Int) < d
        · rw [if_pos hd]; simp [ih]
        · rw [if_neg hd]; simp [ih]

theorem mem_escapeGo (l : Text) : ∀ (p : Option Char) (c : Char),
    c ∈ escapeGo p l → c = '\\' ∨ c ∈ l := by
  induction l with
  | nil => intro p c h; exact absurd h (by simp [escapeGo])
  | cons a cs ih =>
    intro p c h
    rw [escapeGo_cons] at h
    by_cases hcp : escClass a = true ∧ p ≠ some '\\'
    · rw [if_pos hcp] at h
      rcases List.mem_cons.mp h with h1 | h2
      · exact Or.inl h1
      · rcases List.mem_cons.mp h2 with h3 | h4
        · exact Or.inr (h3 ▸ List.mem_cons_self a cs)
        · rcases ih (some a) c h4 with h5 | h6
          · exact Or.inl h5
          · exact Or.inr (List.mem_cons_of_mem a h6)
    · rw [if_neg hcp] at h
      rcases List.mem_cons.mp h with h1 | h2
      · exact Or.inr (h1 ▸ List.mem_cons_self a cs)
      · rcases ih (some a) c h2 with h5 | h6
        · exact Or.inl h5
        · exact Or.inr (List.mem_cons_of_mem a h6)

theorem mem_escapeMdGo (ls : List Text) : ∀ (d : Int) (cf : Option Text) (l2 : Text),
    l2 ∈ escapeMdGo d cf ls → l2 ∈ ls ∨ ∃ l, l ∈ ls ∧ l2 = escapeMdLine l := by
  induction ls with
  | nil => intro d cf l2 h; exact absurd h (by simp [escapeMdGo])
  | cons line rest ih =>
    intro d cf l2 h
    have lift : ∀ (d2 : Int) (cf2 : Option Text), l2 ∈ escapeMdGo d2 cf2 rest →
        l2 ∈ line :: rest ∨ ∃ l, l ∈ line :: rest ∧ l2 = escapeMdLine l := by
      intro d2 cf2 hmem
      rcases ih d2 cf2 l2 hmem with h1 | ⟨l, hl, he⟩
      · exact Or.inl (List.mem_cons_of_mem line h1)
      · exact Or.inr ⟨l, List.mem_cons_of_mem line hl, he⟩
    have hhead : l2 = line → l2 ∈ line :: rest ∨ ∃ l, l ∈ line :: rest ∧ l2 = escapeMdLine l :=
      fun he => Or.inl (he ▸ List.mem_cons_self line rest)
    have hheadEsc : l2 = escapeMdLine line →
        l2 ∈ line :: rest ∨ ∃ l, l ∈ line :: rest ∧ l2 = escapeMdLine l :=
      fun he => Or.inr ⟨line, List.mem_cons_self line rest, he⟩
    cases cf with
    | none =>
      rw [escapeMdGo_cons_none] at h
      by_cases hf : isFence3 line = true
      · rw [if_pos hf] at h
        rcases List.mem_cons.mp h with h1 | h2
        · exact hhead h1
        · exact lift _ _ h2
      · rw [if_neg hf] at h
        by_cases hd : (0 : Int) < d
        · rw [if_pos hd] at h
          rcases List.mem_cons.mp h with h1 | h2
          · exact hhead h1
          · exact lift _ _ h2
        · rw [if_neg hd] at h
          rcases List.mem_cons.mp h with h1 | h2
          · exact hheadEsc h1
          · exact lift _ _ h2
    | some f =>
      rw [escapeMdGo_cons_some] at h
      by_cases hf : isFence3 line = true
      · rw [if_pos hf] at h
        by_cases hs : pyStrip line = f
        · rw [if_pos hs] at h
          rcases List.mem_cons.mp h with h1 | h2
          · exact hhead h1
          · exact lift _ _ h2
        · rw [if_neg hs] at h
          rcases List.mem_cons.mp h with h1 | h2
          · exact hhead h1
          · exact lift _ _ h2
      · rw [if_neg hf] at h
        by_cases hd : (0 : Int) < d
        · rw [if_pos hd] at h
          rcases List.mem_cons.mp h with h1 | h2
          · exact hhead h1
          · exact lift _ _ h2
        · rw [if_neg hd] at h
          rcases List.mem_cons.mp h with h1 | h2
          · exact hheadEsc h1
          · exact lift _ _ h2

/-- C3: applying the Entry Escaper (`_escape_md_in_content`) to its own
output yields an identical string — the second application is a no-op,
because only characters not already preceded by an escape backslash are
escaped and fence/in-code lines pass through unchanged. -/
theorem entry_escaper_idempotent (s : Text) :
    escapeMdInContent (escapeMdInContent s) = escapeMdInContent s := by
  unfold escapeMdInContent
  have hne : escapeMdGo 0 none (splitNl s) ≠ [] := by
    intro h
    have hlen := escapeMdGo_length (splitNl s) 0 none
    rw [h] at hlen
    exact splitNl_ne_nil s (List.length_eq_zero.mp hlen.symm)
  have hnl : ∀ l ∈ escapeMdGo 0 none (splitNl s), '\n' ∉ l := by
    intro l hl
    rcases mem_escapeMdGo (splitNl s) 0 none l hl with h1 | ⟨m, hm, he⟩
    · exact nl_not_mem_splitNl s l h1
    · subst he
      intro hmem
      rcases mem_escapeGo m none '\n' hmem with h2 | h3
      · exact absurd h2 (by decide)
      · exact nl_not_mem_splitNl s m hm h3
  rw [splitNl_joinNl _ hne hnl]
  rw [escapeMdGo_idem]

/-- C7 counterexample: the line `[text](url)` outside any code region.  The
metacharacter substitution of `_escape_md_in_content` has no link exemption:
the brackets of the construct are escaped (only the parens survive, because
parens are not in the metacharacter set), so the claimed exemption fails. -/
theorem link_escaping_counterexample :
    escapeMdInContent ("[text](url)".toList) = ("\\[text\\](url)".toList)
    ∧ escapeMdInContent ("[text](url)".toList) ≠ ("[text](url)".toList) := by
  exact ⟨by decide, by decide⟩

theorem escapeGo_nonclass_id (v : Text) : ∀ (p : Option Char),
    (∀ c ∈ v, escClass c = false) → escapeGo p v = v := by
  induction v with
  | nil => intro p _; rfl
  | cons a v2 ih =>
    intro p h
    have ha : escClass a = false := h a (List.mem_cons_self a v2)
    rw [escapeGo_cons, if_neg (fun hcon => by
      rw [ha] at hcon
      exact Bool.noConfusion hcon.1)]
    rw [ih (some a) (fun c hc => h c (List.mem_cons_of_mem a hc))]

theorem escapeGo_append_nonclass (t : Text) : ∀ (p : Option Char) (rest : Text)
    (d : Char), (∀ c ∈ t, escClass c = false) → t.getLast? = some d →
    escapeGo p (t ++ rest) = t ++ escapeGo (some d) rest := by
  induction t with
  | nil => intro p rest d _ hlast; exact absurd hlast (by simp)
  | cons a t2 ih =>
    intro p rest d h hlast
    have ha : escClass a = false := h a (List.mem_cons_self a t2)
    cases t2 with
    | nil =>
      have hda : d = a := by
        rw [show ([a] : Text).getLast? = some a from rfl, Option.some.injEq] at hlast
        exact hlast.symm
      subst hda
      rw [List.cons_append, List.nil_append, escapeGo_cons, if_neg (fun hcon => by
        rw [ha] at hcon
        exact Bool.noConfusion hcon.1)]
      rfl
    | cons b t3 =>
      have hlast2 : (b :: t3).getLast? = some d := by
        rw [← hlast]
        exact List.getLast?_cons_cons.symm
      rw [List.cons_append, escapeGo_cons, if_neg (fun hcon => by
        rw [ha] at hcon
        exact Bool.noConfusion hcon.1)]
      rw [ih (some a) rest d (fun c hc => h c (List.mem_cons_of_mem a hc)) hlast2]
      rfl

/-- C7 amended: in the Entry Escaper's per-line pass, bracket characters that
are structurally part of a `[text](url)` link construct are escaped exactly
like any other unescaped brackets — there is no link exemption — while the
parenthesis characters are exempt everywhere, because parens are not in the
metacharacter set; so the `(url)` part survives the pass intact and the
`[text]` part gains backslashes. -/
theorem link_escaping_amended (t u : Text)
    (ht : ∀ c ∈ t, escClass c = false)
    (htl : ∀ d, t.getLast? = some d → d ≠ '\\')
    (hu : ∀ c ∈ u, escClass c = false) :
    escapeMdLine ('[' :: (t ++ (']' :: '(' :: (u ++ [')']))))
      = '\\' :: '[' :: (t ++ ('\\' :: ']' :: '(' :: (u ++ [')']))) := by
  unfold escapeMdLine
  have tail : ∀ d : Char, d ≠ '\\' →
      escapeGo (some d) (']' :: '(' :: (u ++ [')']))
        = '\\' :: ']' :: '(' :: (u ++ [')']) := by
    intro d hd
    rw [escapeGo_cons, if_pos ⟨by decide, fun hcon => hd (Option.some.inj hcon)⟩]
    rw [escapeGo_cons, if_neg (fun hcon => absurd hcon.1 (by decide))]
    rw [escapeGo_nonclass_id (u ++ [')']) (some '(') (fun c hc => by
      rcases List.mem_append.mp hc with h1 | h2
      · exact hu c h1
      · rw [List.mem_singleton] at h2
        subst h2
        decide)]
  rw [escapeGo_cons, if_pos ⟨by decide, by simp⟩]
  cases t with
  | nil =>
    rw [List.nil_append, tail '[' (by decide), List.nil_append]
  | cons a t2 =>
    cases hgl : (a :: t2).getLast? with
    | none => exact absurd hgl (by simp)
    | some d =>
      rw [escapeGo_append_nonclass (a :: t2) (some '[') _ d ht hgl,
        tail d (htl d hgl)]

/-- Witness for C7 (amended) at the link `[t](u)`. -/
theorem link_escaping_amended_witness :
    escapeMdLine ('[' :: (['t'] ++ (']' :: '(' :: (['u'] ++ [')']))))
      = '\\' :: '[' :: (['t'] ++ ('\\' :: ']' :: '(' :: (['u'] ++ [')']))) :=
  link_escaping_amended ['t'] ['u'] (by decide)
    (fun d hd => by
      rw [show (['t'] : Text).getLast? = some 't' from rfl, Option.some.injEq] at hd
      subst hd
      decide)
    (by decide)

/-! ### Lemmas about the Loose-Backtick Escaper -/

/-- C6 counterexample: the line of two backticks outside any code region.
The substitution prepends one backslash per backtick before the whole run
(two backslashes then the intact run), not a backslash before each backtick
as the claim states. -/
theorem loose_backtick_shape_counterexample :
    escapeLooseBackticks ("``".toList) = "\\\\``".toList
    ∧ escapeLooseBackticks ("``".toList) ≠ "\\`\\`".toList := by
  exact ⟨by decide, by decide⟩

theorem subLooseRuns_cons (p : Option Char) (c : Char) (cs : Text) :
    subLooseRuns p (c :: cs)
      = if c = btick ∧ p ≠ some btick ∧ cs.head? = some btick then
          List.replicate (1 + (cs.takeWhile isBacktick).length) '\\'
            ++ btick :: subLooseRuns (some btick) cs
        else c :: subLooseRuns (some c) cs := rfl

theorem subLooseRuns_run (cs : Text) :
    subLooseRuns (some btick) cs
      = cs.takeWhile isBacktick
          ++ subLooseRuns (some btick) (cs.dropWhile isBacktick) := by
  induction cs with
  | nil => rfl
  | cons c cs2 ih =>
    by_cases hc : c = btick
    · subst hc
      rw [subLooseRuns_cons, if_neg (fun hcon => hcon.2.1 rfl)]
      rw [List.takeWhile_cons_of_pos (by decide), List.dropWhile_cons_of_pos (by decide)]
      rw [List.cons_append, ih]
    · rw [List.takeWhile_cons_of_neg (by simp [isBacktick, hc]),
        List.dropWhile_cons_of_neg (by simp [isBacktick, hc]), List.nil_append]

theorem head?_dropWhile_ne_btick (cs : Text) :
    (cs.dropWhile isBacktick).head? ≠ some btick := by
  induction cs with
  | nil => simp
  | cons c cs2 ih =>
    by_cases hc : isBacktick c = true
    · rw [List.dropWhile_cons_of_pos hc]
      exact ih
    · rw [List.dropWhile_cons_of_neg hc]
      intro hcon
      rw [List.head?_cons, Option.some.injEq] at hcon
      subst hcon
      exact hc (by decide)

theorem takeWhile_eq_nil_of_head (cs : Text) (h : cs.head? ≠ some btick) :
    cs.takeWhile isBacktick = [] ∧ cs.dropWhile isBacktick = cs := by
  cases cs with
  | nil => exact ⟨rfl, rfl⟩
  | cons c cs2 =>
    have hc : ¬ isBacktick c = true := by
      intro hb
      simp only [isBacktick, beq_iff_eq] at hb
      subst hb
      exact h rfl
    exact ⟨List.takeWhile_cons_of_neg hc, List.dropWhile_cons_of_neg hc⟩

theorem takeWhile_isBacktick_replicate (cs : Text) :
    cs.takeWhile isBacktick
      = List.replicate (cs.takeWhile isBacktick).length btick := by
  induction cs with
  | nil => rfl
  | cons c cs2 ih =>
    by_cases hc : isBacktick c = true
    · have hcb : c = btick := by simpa [isBacktick] using hc
      subst hcb
      rw [List.takeWhile_cons_of_pos hc, List.length_cons, List.replicate_succ]
      exact congrArg (List.cons btick) ih
    · rw [List.takeWhile_cons_of_neg hc]
      rfl

theorem cons_takeWhile_btick (cs : Text) (X : Text) :
    btick :: (cs.takeWhile isBacktick ++ X)
      = List.replicate (1 + (cs.takeWhile isBacktick).length) btick ++ X := by
  conv_lhs => rw [takeWhile_isBacktick_replicate cs]
  rw [Nat.add_comm 1 (cs.takeWhile isBacktick).length, List.replicate_succ,
    List.cons_append]

theorem escapeLooseAmendedSpec_nil : escapeLooseAmendedSpec [] = [] := by
  rw [escapeLooseAmendedSpec]

theorem escapeLooseAmendedSpec_cons (c : Char) (cs : Text) :
    escapeLooseAmendedSpec (c :: cs)
      = if c = btick then
          (if 2 ≤ 1 + (cs.takeWhile isBacktick).length then
            List.replicate (1 + (cs.takeWhile isBacktick).length) '\\'
          else [])
            ++ List.replicate (1 + (cs.takeWhile isBacktick).length) btick
            ++ escapeLooseAmendedSpec (cs.dropWhile isBacktick)
        else c :: escapeLooseAmendedSpec cs := by
  rw [escapeLooseAmendedSpec]

theorem subLooseRuns_eq_spec_aux (n : Nat) : ∀ (l : Text) (p : Option Char),
    l.length ≤ n → (p = some btick → l.head? ≠ some btick) →
    subLooseRuns p l = escapeLooseAmendedSpec l := by
  induction n with
  | zero =>
    intro l p hlen _
    have hl : l = [] := List.length_eq_zero.mp (Nat.le_zero.mp hlen)
    subst hl
    rw [escapeLooseAmendedSpec_nil]
    rfl
  | succ n2 ih =>
    intro l p hlen hp
    cases l with
    | nil => rw [escapeLooseAmendedSpec_nil]; rfl
    | cons c cs =>
      have hlen2 : cs.length ≤ n2 := by
        simp only [List.length_cons] at hlen
        omega
      by_cases hc : c = btick
      · subst hc
        have hpp : p ≠ some btick := fun hpe => hp hpe rfl
        by_cases hh : cs.head? = some btick
        · rw [subLooseRuns_cons, if_pos ⟨rfl, hpp, hh⟩]
          rw [escapeLooseAmendedSpec_cons, if_pos rfl]
          have ht : 1 ≤ (cs.takeWhile isBacktick).length := by
            cases cs with
            | nil => exact absurd hh (by simp)
            | cons b cs2 =>
              have hb : b = btick := by
                rw [List.head?_cons, Option.some.injEq] at hh
                exact hh
              subst hb
              rw [List.takeWhile_cons_of_pos (by decide)]
              simp
          rw [if_pos (by omega)]
          rw [subLooseRuns_run cs]
          rw [ih (cs.dropWhile isBacktick) (some btick)
            (le_trans (List.dropWhile_sublist isBacktick).length_le hlen2)
            (fun _ => head?_dropWhile_ne_btick cs)]
          rw [cons_takeWhile_btick cs (escapeLooseAmendedSpec (cs.dropWhile isBacktick))]
          rw [← List.append_assoc]
        · rw [subLooseRuns_cons, if_neg (fun hcon => hh hcon.2.2)]
          rw [escapeLooseAmendedSpec_cons, if_pos rfl]
          obtain ⟨htw, hdw⟩ := takeWhile_eq_nil_of_head cs hh
          rw [htw, hdw, List.length_nil]
          rw [if_neg (by omega), List.nil_append]
          rw [show (1 : Nat) + 0 = 1 from rfl, List.replicate_one, List.singleton_append]
          rw [ih cs (some btick) hlen2 (fun _ => hh)]
      · rw [subLooseRuns_cons, if_neg (fun hcon => hc hcon.1)]
        rw [escapeLooseAmendedSpec_cons, if_neg hc]
        rw [ih cs (some c) hlen2 (fun hpe => absurd (Option.some.inj hpe) hc)]

theorem subLooseRuns_eq_spec (l : Text) :
    subLooseRuns none l = escapeLooseAmendedSpec l :=
  subLooseRuns_eq_spec_aux l.length l none le_rfl (by simp)

theorem escapeLooseGo_cons (inCode : Bool) (line : Text) (rest : List Text) :
    escapeLooseGo inCode (line :: rest)
      = if startsWithTripleTick line then line :: escapeLooseGo (!inCode) rest
        else if inCode then line :: escapeLooseGo inCode rest
        else subLooseRuns none line :: escapeLooseGo inCode rest := rfl

theorem escapeLooseGoSpec_cons (inCode : Bool) (line : Text) (rest : List Text) :
    escapeLooseGoSpec inCode (line :: rest)
      = if startsWithTripleTick line then line :: escapeLooseGoSpec (!inCode) rest
        else if inCode then line :: escapeLooseGoSpec inCode rest
        else escapeLooseAmendedSpec line :: escapeLooseGoSpec inCode rest := rfl

/-- C6 amended: in the Loose-Backtick Escaper's line loop, every line outside
the in-code-block region has each maximal run of 2 or more consecutive
backticks escaped by inserting one backslash per backtick of the run
immediately before the whole run (the run itself stays contiguous, its length
unchanged), and all other characters pass through — the pass coincides with
the run-by-run description `escapeLooseGoSpec`/`escapeLooseAmendedSpec`. -/
theorem loose_backtick_escape_amended (lines : List Text) : ∀ inCode : Bool,
    escapeLooseGo inCode lines = escapeLooseGoSpec inCode lines := by
  induction lines with
  | nil => intro inCode; rfl
  | cons line rest ih =>
    intro inCode
    rw [escapeLooseGo_cons, escapeLooseGoSpec_cons]
    by_cases h1 : startsWithTripleTick line = true
    · rw [if_pos h1, if_pos h1, ih]
    · rw [if_neg h1, if_neg h1]
      cases inCode with
      | true => rw [if_pos rfl, if_pos rfl, ih]
      | false =>
        rw [if_neg (by simp), if_neg (by simp), ih, subLooseRuns_eq_spec]
